import Mathlib

set_option linter.unusedSectionVars false

/-!
Verification development for the `thread_pool` repository.

The pool (src/pool.h) is embedded as a state-transition system.  A
`PoolState` carries the C++ data members of `thread_pool` — the task
queue (`std::queue<std::function<void()>>` becomes a FIFO list), the
stop flag, and the worker count — together with the shared
promise/future channels (`store`, one slot per submitted task, mirroring
the `std::packaged_task` / `std::future` pairs) and ghost history fields
(`pushed`, `dequeuedIds`, `running`, `completed`) that record what the
threads have done so far.  Each interleaved action of the C++ program
(a producer pushing under the mutex, a worker popping the queue head,
a worker finishing a job and resolving its future, the stop flag being
set) becomes one constructor of the small-step relation `Step`; the
member functions `apply`, `apply_get`, `map`, `map_get`, `join`,
`terminate`, `size` and the destructor are translated one-for-one as
functions on `PoolState`.

Since submitted callables are pure values bound at submission time
(`std::bind` copies the arguments), a task is represented by the outcome
its invocation will produce: `Except ε α`, where `Except.error`
models the callable throwing.  `std::packaged_task` stores that outcome
into the task's shared state when the worker invokes it; reading the
future re-raises a stored exception, so a resolved handle is modelled by
`store id = some outcome`.

The test framework (src/framework.h / framework.cpp) is embedded
separately: `std::map` becomes an association list whose `emplace`
inserts only when the key is absent, exactly like `std::map::emplace`.
-/

namespace ThreadPool

/-- Policy constant from namespace Policy in src/pool.h: finish all tasks on
pool destruction. -/
def Policy.JOIN : Bool := true

/-- Policy constant from namespace Policy in src/pool.h: terminate all
threads on pool destruction. -/
def Policy.TERMINATE : Bool := false

/-- Exceptions thrown by `thread_pool` member functions:
`std::length_error` from the constructor when `num_workers == 0`, and the
`std::runtime_error` "Thread pool invoked after it was terminated." thrown
by `join`, `apply`, `apply_get`, `map` and `map_get` when the stop flag is
set. -/
inductive PoolErr : Type
  | lengthError
  | poolStopped
deriving DecidableEq, Repr

/-- Decidable equality of task outcomes. -/
instance {ε α : Type} [DecidableEq ε] [DecidableEq α] :
    DecidableEq (Except ε α) := fun x y =>
  match x, y with
  | Except.ok a, Except.ok b => decidable_of_iff (a = b) (by simp)
  | Except.ok _, Except.error _ => isFalse (fun h => Except.noConfusion h)
  | Except.error _, Except.ok _ => isFalse (fun h => Except.noConfusion h)
  | Except.error a, Except.error b => decidable_of_iff (a = b) (by simp)

/-- A submitted unit of work.  In src/pool.h a task is a
`std::shared_ptr<std::packaged_task<...>>` whose callable and arguments are
bound at submission time; `result` is the outcome invoking it will produce
(`Except.error` = the callable throws, of payload type `ε`).  `id`
identifies the task's shared state (its promise/future channel);
`hasHandle` records whether the submission returned the
`std::future` to the caller (`apply_get` / `map_get`) or discarded it
(`apply` / `map`). -/
structure Task (ε α : Type) : Type where
  id : Nat
  result : Except ε α
  hasHandle : Bool
deriving DecidableEq, Repr

/-- The shared state of one `thread_pool` object, plus ghost history.

Fields from the C++ members:
`workerCount` = `workers.size()`; `queue` = `tasks` (front = head of the
list); `stop` = the `std::atomic_bool stop`; `store` maps a task id to the
contents of its shared promise/future state (`none` = not yet resolved).

Ghost fields recording the execution history:
`running` = tasks that some worker has popped and is currently executing
(between `tasks.pop()` and the return of `job()`); `completed` = tasks
whose `job()` call has returned, in completion order; `pushed` = every
task ever pushed, in push order; `dequeuedIds` = the ids of popped tasks
in pop order; `nextId` = the next fresh task id. -/
structure PoolState (ε α : Type) : Type where
  workerCount : Nat
  queue : List (Task ε α)
  running : List (Task ε α)
  completed : List (Task ε α)
  store : Nat → Option (Except ε α)
  stop : Bool
  nextId : Nat
  pushed : List (Task ε α)
  dequeuedIds : List Nat

/-- The state of a freshly constructed pool with `n` workers: empty queue,
stop flag clear, no task history (src/pool.h lines 145-174). -/
def initState (ε α : Type) (n : Nat) : PoolState ε α :=
  { workerCount := n, queue := [], running := [], completed := [],
    store := fun _ => none, stop := false, nextId := 0, pushed := [],
    dequeuedIds := [] }

/-- The counted constructor `thread_pool(unsigned num_workers)`: throws
`std::length_error` when `num_workers == 0`, otherwise spawns exactly
`num_workers` workers (src/pool.h lines 144-174). -/
def mkPool (ε α : Type) (numWorkers : Nat) : Except PoolErr (PoolState ε α) :=
  if numWorkers = 0 then Except.error PoolErr.lengthError
  else Except.ok (initState ε α numWorkers)

/-- The default constructor `thread_pool()` delegates
`std::thread::hardware_concurrency()` (here the parameter `hw`) to the
counted constructor (src/pool.h lines 140-142). -/
def mkPoolDefault (ε α : Type) (hw : Nat) : Except PoolErr (PoolState ε α) :=
  mkPool ε α hw

/-- `thread_pool::size()`: returns `workers.size()` (src/pool.h
lines 176-179). -/
def size {ε α : Type} (s : PoolState ε α) : Nat :=
  s.workerCount

/-- Push one wrapped task onto the queue (the body of `apply`/`apply_get`,
and one loop iteration of `map`/`map_get`): allocate the shared
packaged-task state (fresh id), push the wrapper onto `tasks`.  Returns
the new state and the id of the task's future. -/
def pushTask {ε α : Type} (s : PoolState ε α) (r : Except ε α) (hh : Bool) :
    PoolState ε α × Nat :=
  ({ s with queue := s.queue ++ [⟨s.nextId, r, hh⟩],
            pushed := s.pushed ++ [⟨s.nextId, r, hh⟩],
            nextId := s.nextId + 1 }, s.nextId)

/-- `thread_pool::apply(func, args...)` (src/pool.h lines 201-212): throws
if the stop flag is set, otherwise wraps `func(args...)` (whose eventual
outcome is `r`) in a `packaged_task<void()>`, pushes it and wakes one
worker.  No future is returned to the caller. -/
def apply {ε α : Type} (s : PoolState ε α) (r : Except ε α) :
    Except PoolErr (PoolState ε α) :=
  if s.stop = true then Except.error PoolErr.poolStopped
  else Except.ok (pushTask s r false).1

/-- `thread_pool::apply_get(func, args...)` (src/pool.h lines 214-231):
throws if the stop flag is set, otherwise pushes the wrapped task and
returns the future (here the id of the task's store slot). -/
def apply_get {ε α : Type} (s : PoolState ε α) (r : Except ε α) :
    Except PoolErr (PoolState ε α × Nat) :=
  if s.stop = true then Except.error PoolErr.poolStopped
  else Except.ok (pushTask s r true)

/-- The push loop shared by `map` and `map_get`: one `pushTask` per
element outcome, in input order, all under a single lock acquisition;
returns the future ids in input order. -/
def pushBatch {ε α : Type} (s : PoolState ε α) (hh : Bool) :
    List (Except ε α) → PoolState ε α × List Nat
  | [] => (s, [])
  | r :: rs =>
    let p := pushTask s r hh
    let q := pushBatch p.1 hh rs
    (q.1, p.2 :: q.2)

/-- `thread_pool::map(func, begin, end)` (src/pool.h lines 233-247): throws
if the stop flag is set, otherwise pushes one task per range element (the
element outcomes are `f` mapped over the range) and wakes all workers.
No futures are returned. -/
def map {ε α β : Type} (s : PoolState ε α) (f : β → Except ε α)
    (xs : List β) : Except PoolErr (PoolState ε α) :=
  if s.stop = true then Except.error PoolErr.poolStopped
  else Except.ok (pushBatch s false (xs.map f)).1

/-- `thread_pool::map_get(func, begin, end)` (src/pool.h lines 249-271):
throws if the stop flag is set, otherwise pushes one task per range
element and returns the vector of futures, one per element, in range
order. -/
def map_get {ε α β : Type} (s : PoolState ε α) (f : β → Except ε α)
    (xs : List β) : Except PoolErr (PoolState ε α × List Nat) :=
  if s.stop = true then Except.error PoolErr.poolStopped
  else Except.ok (pushBatch s true (xs.map f))

/-- The entry check of `thread_pool::join()` (src/pool.h lines 182-185):
throws `std::runtime_error` if the stop flag is set.  The subsequent wait
loop is modelled by `joinCanReturn`. -/
def join {ε α : Type} (s : PoolState ε α) : Except PoolErr Unit :=
  if s.stop = true then Except.error PoolErr.poolStopped
  else Except.ok ()

/-- The wait loop of `thread_pool::join()` (src/pool.h lines 186-189)
blocks while `!tasks.empty()`; it can return exactly in a state where the
pool is not stopped (the entry check passed) and the task queue is
empty. -/
def joinCanReturn {ε α : Type} (s : PoolState ε α) : Prop :=
  s.stop = false ∧ s.queue = []

/-- A worker finishing a job: invoking the `packaged_task` stores the
outcome (value or caught exception) into the task's shared state, after
which the worker notifies `join_cv` and loops (src/pool.h line 166 and
the `packaged_task` semantics).  For a fire-and-forget task the shared
state exists but no caller holds its future, so nothing observable is
written. -/
def resolveTask {ε α : Type} (s : PoolState ε α) (t : Task ε α) :
    PoolState ε α :=
  { s with
    completed := s.completed ++ [t],
    store := if t.hasHandle then
        (fun k => if k = t.id then some t.result else s.store k)
      else s.store }

/-- One worker completes the in-flight task `t`: `t` leaves the running
set and its future is resolved. -/
def completeTask {ε α : Type} [DecidableEq ε] [DecidableEq α]
    (s : PoolState ε α) (t : Task ε α) : PoolState ε α :=
  resolveTask { s with running := s.running.erase t } t

/-- Resolve a list of in-flight tasks in order (the workers each finish
their current job). -/
def resolveList {ε α : Type} (s : PoolState ε α) :
    List (Task ε α) → PoolState ε α
  | [] => s
  | t :: ts => resolveList (resolveTask s t) ts

/-- All in-flight jobs run to completion: a worker never abandons a job
mid-execution; `terminate` joins every worker thread, which returns only
after the worker's current `job()` call finished. -/
def finishRunning {ε α : Type} (s : PoolState ε α) : PoolState ε α :=
  resolveList { s with running := [] } s.running

/-- `thread_pool::terminate()` (src/pool.h lines 192-199):
`stop.exchange(true)` returns early if the flag was already set; otherwise
the flag becomes set, all workers are woken and joined.  Joining lets
every in-flight job finish (`finishRunning`); tasks still in the queue
stay there unexecuted, because a woken worker checks the stop flag before
popping and exits. -/
def terminate {ε α : Type} (s : PoolState ε α) : PoolState ε α :=
  if s.stop = true then s
  else { finishRunning s with stop := true }

/-- The cumulative effect of the workers draining the whole queue in FIFO
order while the destructor's `join()` waits: every queued task is popped
(in order) into the running set. -/
def dequeueAll {ε α : Type} (s : PoolState ε α) : PoolState ε α :=
  { s with queue := [],
           running := s.running ++ s.queue,
           dequeuedIds := s.dequeuedIds ++ s.queue.map Task.id }

/-- `thread_pool::~thread_pool()` (src/pool.h lines 273-277): under
`Policy::JOIN` it calls `join()` first — which throws if the pool is
already stopped, and otherwise returns once the workers drained the
queue — and then `terminate()`; under `Policy::TERMINATE` it calls
`terminate()` directly. -/
def destruct {ε α : Type} (policy : Bool) (s : PoolState ε α) :
    Except PoolErr (PoolState ε α) :=
  if policy = Policy.JOIN then
    if s.stop = true then Except.error PoolErr.poolStopped
    else Except.ok (terminate (dequeueAll s))
  else Except.ok (terminate s)

/-- One interleaved action of the running pool:
`push` — a producer inside `apply`/`apply_get`/`map`/`map_get` pushes one
task under the mutex (having passed the stop check);
`dequeue` — a worker wakes with the stop flag clear and the queue
non-empty, pops the queue head and starts executing it (src/pool.h
lines 157-165);
`complete` — a worker's `job()` call returns, resolving the task's shared
state (line 166);
`stopFlag` — `terminate` performs `stop.exchange(true)` (line 194). -/
inductive Step {ε α : Type} [DecidableEq ε] [DecidableEq α] :
    PoolState ε α → PoolState ε α → Prop
  | push (s : PoolState ε α) (r : Except ε α) (hh : Bool)
      (hs : s.stop = false) : Step s (pushTask s r hh).1
  | dequeue (s : PoolState ε α) (t : Task ε α) (rest : List (Task ε α))
      (hs : s.stop = false) (hq : s.queue = t :: rest) :
      Step s { s with queue := rest, running := s.running ++ [t],
                      dequeuedIds := s.dequeuedIds ++ [t.id] }
  | complete (s : PoolState ε α) (t : Task ε α) (ht : t ∈ s.running) :
      Step s (completeTask s t)
  | stopFlag (s : PoolState ε α) : Step s { s with stop := true }

/-- Reachability: a finite interleaving of pool actions. -/
def Reach {ε α : Type} [DecidableEq ε] [DecidableEq α]
    (s s' : PoolState ε α) : Prop :=
  Relation.ReflTransGen Step s s'

end ThreadPool

namespace TestFramework

/-!
Embedding of the unit-test framework (src/framework.h, src/framework.cpp).
Test names (`std::string`) become an arbitrary key type `κ` with decidable
equality; a registered callable is represented by the outcome running it
will produce (`Except μ Unit`, where `Except.error` carries the
`what()` message of the exception the test throws, of type `μ`).  A
`std::map` becomes an association list with unique keys: `emplaceA`
inserts only when the key is absent, exactly like `std::map::emplace`,
and `eraseA` removes the key, like `std::map::erase`. -/

/-- Key lookup in an association list (`std::map::find` / `at`). -/
def lookupA {κ β : Type} [DecidableEq κ] (k : κ) :
    List (κ × β) → Option β
  | [] => none
  | p :: ps => if p.1 = k then some p.2 else lookupA k ps

/-- `std::map::emplace`: no insertion when the key is already present. -/
def emplaceA {κ β : Type} [DecidableEq κ] (k : κ) (v : β)
    (m : List (κ × β)) : List (κ × β) :=
  if (lookupA k m).isSome then m else m ++ [(k, v)]

/-- `std::map::erase` by key. -/
def eraseA {κ β : Type} [DecidableEq κ] (k : κ) :
    List (κ × β) → List (κ × β)
  | [] => []
  | p :: ps => if p.1 = k then eraseA k ps else p :: eraseA k ps

/-- The error thrown by `Framework::run` and `Framework::result` when the
name is not registered (`std::out_of_range`). -/
inductive FrameworkErr : Type
  | notRegistered
deriving DecidableEq, Repr

/-- The `Framework` class: `tests` maps a name to its registered unit
test, `results` maps an executed test's name to `none` (passed) or
`some msg` (failed with message `msg`). -/
structure Framework (κ μ : Type) : Type where
  tests : List (κ × Except μ Unit)
  results : List (κ × Option μ)
deriving DecidableEq

/-- `Framework::contains`: whether the name is registered. -/
def contains {κ μ : Type} [DecidableEq κ] (fr : Framework κ μ) (name : κ) :
    Bool :=
  (lookupA name fr.tests).isSome

/-- `Framework::executed`: whether the test has been run. -/
def executed {κ μ : Type} [DecidableEq κ] (fr : Framework κ μ) (name : κ) :
    Bool :=
  (lookupA name fr.results).isSome

/-- `Framework::emplace` (src/framework.cpp lines 27-30):
`tests.emplace(name, func); results.erase(name);`. -/
def emplace {κ μ : Type} [DecidableEq κ] (fr : Framework κ μ) (name : κ)
    (func : Except μ Unit) : Framework κ μ :=
  { tests := emplaceA name func fr.tests,
    results := eraseA name fr.results }

/-- `Framework::run` (src/framework.cpp lines 32-46): throws
`std::out_of_range` when the name is not registered; returns without
executing when the test already ran; otherwise executes the test,
recording `none` on success and the caught message on failure. -/
def run {κ μ : Type} [DecidableEq κ] (fr : Framework κ μ) (name : κ) :
    Except FrameworkErr (Framework κ μ) :=
  if contains fr name = false then Except.error FrameworkErr.notRegistered
  else if executed fr name = true then Except.ok fr
  else match lookupA name fr.tests with
    | none => Except.error FrameworkErr.notRegistered
    | some (Except.ok _) =>
      Except.ok { fr with results := fr.results ++ [(name, none)] }
    | some (Except.error e) =>
      Except.ok { fr with results := fr.results ++ [(name, some e)] }

/-- A concrete framework (names and messages drawn from `Nat`): test `0`
is registered with a passing body and has already been run. -/
def fwEx : Framework Nat Nat :=
  { tests := [(0, Except.ok ())], results := [(0, some 3)] }

end TestFramework

namespace ThreadPool

variable {ε α : Type} [DecidableEq ε] [DecidableEq α]

/-- Every task the pool currently owns or a worker is executing or has
finished: the completed history, the in-flight tasks and the queue. -/
def allTasks (s : PoolState ε α) : List (Task ε α) :=
  s.completed ++ (s.running ++ s.queue)

/-- The inductive invariant of the pool's shared state:

`pushOrder` — the queue is a FIFO: the ids of all pushed tasks are the
dequeued ids (in pop order) followed by the current queue (in order);
`partitionTasks` — every pushed task is in exactly one of completed /
running / queue;
`idsBound` and `idsNodup` — task ids are allocated freshly, so they are
distinct;
`pendingUnresolved` — a future is unresolved until its task's `job()`
call returns;
`completedResolved` — a completed task with a handle has its result
(value or captured exception) stored in its future;
`completedNoHandle` — a fire-and-forget task never writes an observable
result;
`freshUnresolved` — slots of ids not yet allocated are empty. -/
structure Inv (s : PoolState ε α) : Prop where
  pushOrder : s.pushed.map Task.id = s.dequeuedIds ++ s.queue.map Task.id
  partitionTasks : s.pushed.Perm (allTasks s)
  idsBound : ∀ t ∈ s.pushed, t.id < s.nextId
  idsNodup : (s.pushed.map Task.id).Nodup
  pendingUnresolved : ∀ t ∈ s.queue ++ s.running, s.store t.id = none
  completedResolved : ∀ t ∈ s.completed, t.hasHandle = true →
    s.store t.id = some t.result
  completedNoHandle : ∀ t ∈ s.completed, t.hasHandle = false →
    s.store t.id = none
  freshUnresolved : ∀ k, s.nextId ≤ k → s.store k = none

/-! Concrete executions used to exercise the theorems below: small pools
with explicitly scheduled interleavings. -/

/-- Fire-and-forget task number 0 of the two-worker scenario. -/
def c1t0 : Task Nat Nat := ⟨0, Except.ok 1, false⟩

/-- Fire-and-forget task number 1 of the two-worker scenario. -/
def c1t1 : Task Nat Nat := ⟨1, Except.ok 2, false⟩

/-- Two-worker pool, after two `apply` submissions. -/
def c1b : PoolState Nat Nat :=
  (pushTask (pushTask (initState Nat Nat 2) (Except.ok 1) false).1 (Except.ok 2) false).1

/-- Worker 1 popped task 0. -/
def c1d : PoolState Nat Nat :=
  { c1b with queue := [c1t1], running := c1b.running ++ [c1t0], dequeuedIds := c1b.dequeuedIds ++ [c1t0.id] }

/-- Worker 2 popped task 1: the queue is now empty, both tasks execute. -/
def c1e : PoolState Nat Nat :=
  { c1d with queue := [], running := c1d.running ++ [c1t1], dequeuedIds := c1d.dequeuedIds ++ [c1t1.id] }

/-- Worker 1 finished task 0 (notifying `join_cv`); task 1 is still
executing on worker 2 while the queue is empty. -/
def c1f : PoolState Nat Nat := completeTask c1e c1t0

/-- One-worker pool after an `apply_get` submission whose callable
throws `7`. -/
def c2a : PoolState Nat Nat :=
  (pushTask (initState Nat Nat 1) (Except.error 7) true).1

/-- The throwing task of the `c2` scenario. -/
def c2t : Task Nat Nat := ⟨0, Except.error 7, true⟩

/-- The worker popped the throwing task and is executing it. -/
def c2b : PoolState Nat Nat :=
  { c2a with queue := [], running := c2a.running ++ [c2t], dequeuedIds := c2a.dequeuedIds ++ [c2t.id] }

/-- One-worker pool after `map_get (· * 2) [3, 4]`. -/
def c4s : PoolState Nat Nat :=
  (pushBatch (initState Nat Nat 1) true ([3, 4].map (fun x => Except.ok (x * 2)))).1

/-- First batched task of the `c4` scenario. -/
def c4t0 : Task Nat Nat := ⟨0, Except.ok 6, true⟩

/-- Second batched task of the `c4` scenario. -/
def c4t1 : Task Nat Nat := ⟨1, Except.ok 8, true⟩

/-- The worker popped the first batched task. -/
def c4b : PoolState Nat Nat :=
  { c4s with queue := [c4t1], running := c4s.running ++ [c4t0], dequeuedIds := c4s.dequeuedIds ++ [c4t0.id] }

/-- The worker popped the second batched task. -/
def c4c : PoolState Nat Nat :=
  { c4b with queue := [], running := c4b.running ++ [c4t1], dequeuedIds := c4b.dequeuedIds ++ [c4t1.id] }

/-- The first batched task completed. -/
def c4d : PoolState Nat Nat := completeTask c4c c4t0

/-- Both batched tasks completed. -/
def c4e : PoolState Nat Nat := completeTask c4d c4t1

/-- One-worker pool after `apply_get` of a task computing `5`. -/
def c5s : PoolState Nat Nat :=
  (pushTask (initState Nat Nat 1) (Except.ok 5) true).1

/-- The task of the `c5` scenario. -/
def c5t : Task Nat Nat := ⟨0, Except.ok 5, true⟩

/-- The worker popped the `c5` task. -/
def c5b : PoolState Nat Nat :=
  { c5s with queue := [], running := c5s.running ++ [c5t], dequeuedIds := c5s.dequeuedIds ++ [c5t.id] }

/-- The `c5` task completed: its future is resolved. -/
def c5c : PoolState Nat Nat := completeTask c5b c5t

/-- One-worker pool with one handled and one fire-and-forget task queued,
about to be destroyed. -/
def c6s : PoolState Nat Nat :=
  (pushTask (pushTask (initState Nat Nat 1) (Except.ok 5) true).1 (Except.ok 7) false).1

/-- First task of the FIFO scenario. -/
def c8t0 : Task Nat Nat := ⟨0, Except.ok 1, false⟩

/-- Second task of the FIFO scenario. -/
def c8t1 : Task Nat Nat := ⟨1, Except.ok 2, false⟩

/-- One-worker pool after two `apply` submissions. -/
def c8c : PoolState Nat Nat :=
  (pushTask (pushTask (initState Nat Nat 1) (Except.ok 1) false).1 (Except.ok 2) false).1

/-- The single worker popped the first-submitted task first. -/
def c8d : PoolState Nat Nat :=
  { c8c with queue := [c8t1], running := c8c.running ++ [c8t0], dequeuedIds := c8c.dequeuedIds ++ [c8t0.id] }

@[simp]
theorem resolveTask_queue (s : PoolState ε α) (t : Task ε α) :
    (resolveTask s t).queue = s.queue := rfl

@[simp]
theorem resolveTask_running (s : PoolState ε α) (t : Task ε α) :
    (resolveTask s t).running = s.running := rfl

@[simp]
theorem resolveTask_completed (s : PoolState ε α) (t : Task ε α) :
    (resolveTask s t).completed = s.completed ++ [t] := rfl

@[simp]
theorem resolveTask_stop (s : PoolState ε α) (t : Task ε α) :
    (resolveTask s t).stop = s.stop := rfl

@[simp]
theorem resolveTask_pushed (s : PoolState ε α) (t : Task ε α) :
    (resolveTask s t).pushed = s.pushed := rfl

@[simp]
theorem resolveTask_dequeuedIds (s : PoolState ε α) (t : Task ε α) :
    (resolveTask s t).dequeuedIds = s.dequeuedIds := rfl

@[simp]
theorem resolveTask_nextId (s : PoolState ε α) (t : Task ε α) :
    (resolveTask s t).nextId = s.nextId := rfl

@[simp]
theorem resolveTask_workerCount (s : PoolState ε α) (t : Task ε α) :
    (resolveTask s t).workerCount = s.workerCount := rfl

theorem resolveTask_store_self (s : PoolState ε α) (t : Task ε α)
    (hh : t.hasHandle = true) :
    (resolveTask s t).store t.id = some t.result := by
  simp [resolveTask, hh]

theorem resolveTask_store_nohandle (s : PoolState ε α) (t : Task ε α)
    (hh : t.hasHandle = false) :
    (resolveTask s t).store = s.store := by
  simp [resolveTask, hh]

theorem resolveTask_store_ne (s : PoolState ε α) (t : Task ε α) {k : Nat}
    (hk : k ≠ t.id) :
    (resolveTask s t).store k = s.store k := by
  by_cases hb : t.hasHandle <;> simp [resolveTask, hb, hk]

@[simp]
theorem completeTask_queue (s : PoolState ε α) (t : Task ε α) :
    (completeTask s t).queue = s.queue := rfl

@[simp]
theorem completeTask_running (s : PoolState ε α) (t : Task ε α) :
    (completeTask s t).running = s.running.erase t := rfl

@[simp]
theorem completeTask_completed (s : PoolState ε α) (t : Task ε α) :
    (completeTask s t).completed = s.completed ++ [t] := rfl

@[simp]
theorem completeTask_stop (s : PoolState ε α) (t : Task ε α) :
    (completeTask s t).stop = s.stop := rfl

@[simp]
theorem completeTask_pushed (s : PoolState ε α) (t : Task ε α) :
    (completeTask s t).pushed = s.pushed := rfl

@[simp]
theorem completeTask_dequeuedIds (s : PoolState ε α) (t : Task ε α) :
    (completeTask s t).dequeuedIds = s.dequeuedIds := rfl

@[simp]
theorem completeTask_nextId (s : PoolState ε α) (t : Task ε α) :
    (completeTask s t).nextId = s.nextId := rfl

@[simp]
theorem completeTask_workerCount (s : PoolState ε α) (t : Task ε α) :
    (completeTask s t).workerCount = s.workerCount := rfl

theorem completeTask_store_self (s : PoolState ε α) (t : Task ε α)
    (hh : t.hasHandle = true) :
    (completeTask s t).store t.id = some t.result :=
  resolveTask_store_self _ _ hh

theorem completeTask_store_nohandle (s : PoolState ε α) (t : Task ε α)
    (hh : t.hasHandle = false) :
    (completeTask s t).store = s.store :=
  resolveTask_store_nohandle _ _ hh

theorem completeTask_store_ne (s : PoolState ε α) (t : Task ε α) {k : Nat}
    (hk : k ≠ t.id) :
    (completeTask s t).store k = s.store k :=
  resolveTask_store_ne _ _ hk

theorem Inv.allNodupIds {s : PoolState ε α} (h : Inv s) :
    ((allTasks s).map Task.id).Nodup :=
  ((h.partitionTasks.map Task.id).nodup_iff).mp h.idsNodup

theorem Inv.allNodup {s : PoolState ε α} (h : Inv s) :
    (allTasks s).Nodup :=
  h.allNodupIds.of_map

theorem Inv.allInj {s : PoolState ε α} (h : Inv s) :
    ∀ x ∈ allTasks s, ∀ y ∈ allTasks s, x.id = y.id → x = y :=
  fun _ hx _ hy => List.inj_on_of_nodup_map h.allNodupIds hx hy

theorem mem_allTasks_of_completed {s : PoolState ε α} {t : Task ε α}
    (ht : t ∈ s.completed) : t ∈ allTasks s := by
  simp [allTasks, ht]

theorem mem_allTasks_of_running {s : PoolState ε α} {t : Task ε α}
    (ht : t ∈ s.running) : t ∈ allTasks s := by
  simp [allTasks, ht]

theorem mem_allTasks_of_queue {s : PoolState ε α} {t : Task ε α}
    (ht : t ∈ s.queue) : t ∈ allTasks s := by
  simp [allTasks, ht]

theorem Inv.mem_pushed_of_allTasks {s : PoolState ε α} {t : Task ε α}
    (h : Inv s) (ht : t ∈ allTasks s) : t ∈ s.pushed :=
  h.partitionTasks.mem_iff.mpr ht

theorem Inv_initState (n : Nat) : Inv (initState ε α n) := by
  constructor <;> simp [initState, allTasks]

theorem Inv_pushTask {s : PoolState ε α} (h : Inv s) (r : Except ε α)
    (hh : Bool) : Inv (pushTask s r hh).1 := by
  constructor
  · simp only [pushTask, List.map_append]
    rw [h.pushOrder]
    simp [List.append_assoc]
  · have h1 := h.partitionTasks.append_right [(⟨s.nextId, r, hh⟩ : Task ε α)]
    simpa [allTasks, pushTask, List.append_assoc] using h1
  · intro t ht
    simp only [pushTask, List.mem_append, List.mem_singleton] at ht
    rcases ht with ht | ht
    · exact Nat.lt_succ_of_lt (h.idsBound t ht)
    · subst ht; exact Nat.lt_succ_self _
  · simp only [pushTask, List.map_append]
    rw [List.nodup_append]
    refine ⟨h.idsNodup, by simp, ?_⟩
    intro a ha hb
    simp only [List.map_cons, List.map_nil, List.mem_singleton] at hb
    subst hb
    obtain ⟨t, ht, hti⟩ := List.mem_map.mp ha
    have := h.idsBound t ht
    omega
  · intro t ht
    simp only [pushTask, List.mem_append, List.mem_singleton] at ht
    rcases ht with (ht | ht) | ht
    · exact h.pendingUnresolved t (by simp [ht])
    · subst ht; exact h.freshUnresolved _ le_rfl
    · exact h.pendingUnresolved t (by simp [ht])
  · intro t ht hht
    exact h.completedResolved t ht hht
  · intro t ht hht
    exact h.completedNoHandle t ht hht
  · intro k hk
    exact h.freshUnresolved k (by simp [pushTask] at hk; omega)

theorem Inv_dequeue {s : PoolState ε α} {t : Task ε α}
    {rest : List (Task ε α)} (h : Inv s) (hq : s.queue = t :: rest) :
    Inv { s with queue := rest, running := s.running ++ [t],
                 dequeuedIds := s.dequeuedIds ++ [t.id] } := by
  constructor
  · rw [h.pushOrder, hq]
    simp [List.append_assoc]
  · have h1 := h.partitionTasks
    rw [allTasks, hq] at h1
    simpa [allTasks, List.append_assoc] using h1
  · exact h.idsBound
  · exact h.idsNodup
  · intro u hu
    apply h.pendingUnresolved
    rw [hq]
    simp only [List.mem_append, List.mem_cons, List.mem_singleton] at hu ⊢
    tauto
  · exact h.completedResolved
  · exact h.completedNoHandle
  · exact h.freshUnresolved

theorem Inv_completeTask {s : PoolState ε α} {t : Task ε α} (h : Inv s)
    (ht : t ∈ s.running) : Inv (completeTask s t) := by
  have htAll : t ∈ allTasks s := mem_allTasks_of_running ht
  have hndElems := h.allNodup
  rw [allTasks, List.nodup_append] at hndElems
  obtain ⟨hndC, hndRQ, hdisC⟩ := hndElems
  rw [List.nodup_append] at hndRQ
  obtain ⟨hndR, hndQ, hdisRQ⟩ := hndRQ
  have htPushed : t ∈ s.pushed := h.mem_pushed_of_allTasks htAll
  constructor
  · simpa using h.pushOrder
  · have h1 : s.running.Perm (t :: s.running.erase t) :=
      List.perm_cons_erase ht
    have h2 : (allTasks s).Perm
        (s.completed ++ ((t :: s.running.erase t) ++ s.queue)) :=
      List.Perm.append_left s.completed (h1.append_right s.queue)
    have h3 : s.completed ++ ((t :: s.running.erase t) ++ s.queue) =
        allTasks (completeTask s t) := by
      simp [allTasks, List.append_assoc]
    exact h3 ▸ (h.partitionTasks.trans h2)
  · simpa using h.idsBound
  · simpa using h.idsNodup
  · intro u hu
    simp only [completeTask_queue, completeTask_running, List.mem_append]
      at hu
    have huMem : u ∈ s.queue ++ s.running := by
      rcases hu with hu | hu
      · simp [hu]
      · simp [List.mem_of_mem_erase hu]
    have hune : u.id ≠ t.id := by
      intro he
      have huAll : u ∈ allTasks s := by
        rcases hu with hu | hu
        · exact mem_allTasks_of_queue hu
        · exact mem_allTasks_of_running (List.mem_of_mem_erase hu)
      have heq : u = t := h.allInj u huAll t htAll he
      subst heq
      rcases hu with hu | hu
      · exact hdisRQ ht hu
      · exact (hndR.mem_erase_iff.mp hu).1 rfl
    rw [completeTask_store_ne s t hune]
    exact h.pendingUnresolved u huMem
  · intro u hu hhu
    simp only [completeTask_completed, List.mem_append, List.mem_singleton]
      at hu
    rcases hu with hu | hu
    · have hune : u.id ≠ t.id := by
        intro he
        have heq : u = t :=
          h.allInj u (mem_allTasks_of_completed hu) t htAll he
        subst heq
        exact hdisC hu (by simp [ht])
      rw [completeTask_store_ne s t hune]
      exact h.completedResolved u hu hhu
    · subst hu
      exact completeTask_store_self s u hhu
  · intro u hu hhu
    simp only [completeTask_completed, List.mem_append, List.mem_singleton]
      at hu
    rcases hu with hu | hu
    · have hune : u.id ≠ t.id := by
        intro he
        have heq : u = t :=
          h.allInj u (mem_allTasks_of_completed hu) t htAll he
        subst heq
        exact hdisC hu (by simp [ht])
      rw [completeTask_store_ne s t hune]
      exact h.completedNoHandle u hu hhu
    · subst hu
      rw [completeTask_store_nohandle s u hhu]
      exact h.pendingUnresolved u (by simp [ht])
  · intro k hk
    have hkne : k ≠ t.id := by
      have := h.idsBound t htPushed
      simp only [completeTask_nextId] at hk
      omega
    rw [completeTask_store_ne s t hkne]
    exact h.freshUnresolved k hk

theorem Inv_stopSet {s : PoolState ε α} (h : Inv s) :
    Inv { s with stop := true } :=
  ⟨h.pushOrder, h.partitionTasks, h.idsBound, h.idsNodup,
   h.pendingUnresolved, h.completedResolved, h.completedNoHandle,
   h.freshUnresolved⟩

theorem Inv_step {s s' : PoolState ε α} (hstep : Step s s') (h : Inv s) :
    Inv s' := by
  cases hstep with
  | push r hh hs => exact Inv_pushTask h r hh
  | dequeue t rest hs hq => exact Inv_dequeue h hq
  | complete t ht => exact Inv_completeTask h ht
  | stopFlag => exact Inv_stopSet h

theorem Inv_reach {s s' : PoolState ε α} (hr : Reach s s') (h : Inv s) :
    Inv s' := by
  induction hr with
  | refl => exact h
  | tail _ hstep ih => exact Inv_step hstep ih

theorem step_pushed_mem {s s' : PoolState ε α} (hstep : Step s s')
    {t : Task ε α} (ht : t ∈ s.pushed) : t ∈ s'.pushed := by
  cases hstep with
  | push r hh hs => simp [pushTask, ht]
  | dequeue u rest hs hq => simpa using ht
  | complete u hu => simpa using ht
  | stopFlag => simpa using ht

theorem reach_pushed_mem {s s' : PoolState ε α} (hr : Reach s s')
    {t : Task ε α} (ht : t ∈ s.pushed) : t ∈ s'.pushed := by
  induction hr with
  | refl => exact ht
  | tail _ hstep ih => exact step_pushed_mem hstep ih

theorem step_workerCount {s s' : PoolState ε α} (hstep : Step s s') :
    s'.workerCount = s.workerCount := by
  cases hstep <;> rfl

theorem reach_workerCount {s s' : PoolState ε α} (hr : Reach s s') :
    s'.workerCount = s.workerCount := by
  induction hr with
  | refl => rfl
  | tail _ hstep ih => exact (step_workerCount hstep).trans ih

/-- The central future-correctness lemma: for any task pushed with a
handle, along any interleaving the handle is either still unresolved or
holds exactly that task's own outcome; and once the queue is empty and no
worker is still executing a job, the handle is resolved with that
outcome. -/
theorem store_correct {s s' : PoolState ε α} (h : Inv s) (hr : Reach s s')
    {t : Task ε α} (htp : t ∈ s.pushed) :
    (s'.store t.id = none ∨ s'.store t.id = some t.result) ∧
    (s'.queue = [] → s'.running = [] → t.hasHandle = true →
      s'.store t.id = some t.result) := by
  have h' : Inv s' := Inv_reach hr h
  have htp' : t ∈ s'.pushed := reach_pushed_mem hr htp
  have htAll : t ∈ allTasks s' := h'.partitionTasks.mem_iff.mp htp'
  rw [allTasks, List.mem_append, List.mem_append] at htAll
  rcases htAll with hC | hR | hQ
  · constructor
    · by_cases hh : t.hasHandle = true
      · exact Or.inr (h'.completedResolved t hC hh)
      · exact Or.inl (h'.completedNoHandle t hC (by simpa using hh))
    · intro _ _ hh
      exact h'.completedResolved t hC hh
  · constructor
    · exact Or.inl (h'.pendingUnresolved t (by simp [hR]))
    · intro _ hrn _
      rw [hrn] at hR
      simp at hR
  · constructor
    · exact Or.inl (h'.pendingUnresolved t (by simp [hQ]))
    · intro hq _ _
      rw [hq] at hQ
      simp at hQ

theorem pushBatch_nextId (hh : Bool) :
    ∀ (rs : List (Except ε α)) (s : PoolState ε α),
      ((pushBatch s hh rs).1).nextId = s.nextId + rs.length := by
  intro rs
  induction rs with
  | nil => intro s; simp [pushBatch]
  | cons r rs ih =>
    intro s
    simp only [pushBatch]
    rw [ih]
    simp [pushTask]
    omega

theorem pushBatch_ids (hh : Bool) :
    ∀ (rs : List (Except ε α)) (s : PoolState ε α),
      (pushBatch s hh rs).2 = List.range' s.nextId rs.length := by
  intro rs
  induction rs with
  | nil => intro s; simp [pushBatch]
  | cons r rs ih =>
    intro s
    simp only [pushBatch, List.length_cons]
    rw [List.range'_succ]
    rw [ih]
    simp [pushTask]

theorem pushBatch_stop (hh : Bool) :
    ∀ (rs : List (Except ε α)) (s : PoolState ε α),
      ((pushBatch s hh rs).1).stop = s.stop := by
  intro rs
  induction rs with
  | nil => intro s; simp [pushBatch]
  | cons r rs ih =>
    intro s
    simp only [pushBatch]
    rw [ih]
    rfl

theorem pushBatch_pushed_mono (hh : Bool) :
    ∀ (rs : List (Except ε α)) (s : PoolState ε α) (t : Task ε α),
      t ∈ s.pushed → t ∈ ((pushBatch s hh rs).1).pushed := by
  intro rs
  induction rs with
  | nil => intro s t ht; simpa [pushBatch] using ht
  | cons r rs ih =>
    intro s t ht
    simp only [pushBatch]
    exact ih _ t (by simp [pushTask, ht])

theorem pushBatch_mem_pushed (hh : Bool) :
    ∀ (rs : List (Except ε α)) (s : PoolState ε α) (i : Nat)
      (hi : i < rs.length),
      (⟨s.nextId + i, rs.get ⟨i, hi⟩, hh⟩ : Task ε α) ∈
        ((pushBatch s hh rs).1).pushed := by
  intro rs
  induction rs with
  | nil => intro s i hi; simp at hi
  | cons r rs ih =>
    intro s i hi
    cases i with
    | zero =>
      simp only [pushBatch, List.get]
      exact pushBatch_pushed_mono hh rs _ _ (by simp [pushTask])
    | succ j =>
      have hj : j < rs.length := by simpa using hi
      have := ih (pushTask s r hh).1 j hj
      simp only [pushBatch]
      have harith : (pushTask s r hh).1.nextId + j = s.nextId + (j + 1) := by
        simp [pushTask]
        omega
      rw [harith] at this
      simpa using this

theorem Inv_pushBatch (hh : Bool) :
    ∀ (rs : List (Except ε α)) (s : PoolState ε α),
      Inv s → Inv ((pushBatch s hh rs).1) := by
  intro rs
  induction rs with
  | nil => intro s h; simpa [pushBatch] using h
  | cons r rs ih =>
    intro s h
    simp only [pushBatch]
    exact ih _ (Inv_pushTask h r hh)

theorem resolveList_queue :
    ∀ (l : List (Task ε α)) (s : PoolState ε α),
      (resolveList s l).queue = s.queue := by
  intro l
  induction l with
  | nil => intro s; rfl
  | cons t ts ih => intro s; simp only [resolveList]; rw [ih]; rfl

theorem resolveList_running :
    ∀ (l : List (Task ε α)) (s : PoolState ε α),
      (resolveList s l).running = s.running := by
  intro l
  induction l with
  | nil => intro s; rfl
  | cons t ts ih => intro s; simp only [resolveList]; rw [ih]; rfl

theorem resolveList_completed :
    ∀ (l : List (Task ε α)) (s : PoolState ε α),
      (resolveList s l).completed = s.completed ++ l := by
  intro l
  induction l with
  | nil => intro s; simp [resolveList]
  | cons t ts ih =>
    intro s
    simp only [resolveList]
    rw [ih]
    simp

theorem resolveList_stop :
    ∀ (l : List (Task ε α)) (s : PoolState ε α),
      (resolveList s l).stop = s.stop := by
  intro l
  induction l with
  | nil => intro s; rfl
  | cons t ts ih => intro s; simp only [resolveList]; rw [ih]; rfl

theorem resolveList_pushed :
    ∀ (l : List (Task ε α)) (s : PoolState ε α),
      (resolveList s l).pushed = s.pushed := by
  intro l
  induction l with
  | nil => intro s; rfl
  | cons t ts ih => intro s; simp only [resolveList]; rw [ih]; rfl

theorem resolveList_dequeuedIds :
    ∀ (l : List (Task ε α)) (s : PoolState ε α),
      (resolveList s l).dequeuedIds = s.dequeuedIds := by
  intro l
  induction l with
  | nil => intro s; rfl
  | cons t ts ih => intro s; simp only [resolveList]; rw [ih]; rfl

theorem resolveList_nextId :
    ∀ (l : List (Task ε α)) (s : PoolState ε α),
      (resolveList s l).nextId = s.nextId := by
  intro l
  induction l with
  | nil => intro s; rfl
  | cons t ts ih => intro s; simp only [resolveList]; rw [ih]; rfl

theorem resolveList_store_notmem :
    ∀ (l : List (Task ε α)) (s : PoolState ε α) (k : Nat),
      (∀ t ∈ l, t.id ≠ k) → (resolveList s l).store k = s.store k := by
  intro l
  induction l with
  | nil => intro s k _; rfl
  | cons t ts ih =>
    intro s k hk
    simp only [resolveList]
    rw [ih _ k (fun u hu => hk u (by simp [hu]))]
    exact resolveTask_store_ne s t (fun he => hk t (by simp) he.symm)

theorem resolveList_store_mem :
    ∀ (l : List (Task ε α)) (s : PoolState ε α) (t : Task ε α),
      (l.map Task.id).Nodup → t ∈ l → t.hasHandle = true →
      (resolveList s l).store t.id = some t.result := by
  intro l
  induction l with
  | nil => intro s t _ ht; simp at ht
  | cons u us ih =>
    intro s t hnd ht hh
    simp only [List.map_cons, List.nodup_cons] at hnd
    rcases List.mem_cons.mp ht with ht | ht
    · subst ht
      simp only [resolveList]
      rw [resolveList_store_notmem us _ t.id
        (fun v hv he => hnd.1 (he ▸ List.mem_map_of_mem Task.id hv))]
      exact resolveTask_store_self s t hh
    · exact ih _ t hnd.2 ht hh

theorem resolveList_store_id_nohandle :
    ∀ (l : List (Task ε α)) (s : PoolState ε α) (t : Task ε α),
      (l.map Task.id).Nodup → t ∈ l → t.hasHandle = false →
      (resolveList s l).store t.id = s.store t.id := by
  intro l
  induction l with
  | nil => intro s t _ ht; simp at ht
  | cons u us ih =>
    intro s t hnd ht hh
    simp only [List.map_cons, List.nodup_cons] at hnd
    rcases List.mem_cons.mp ht with ht | ht
    · subst ht
      simp only [resolveList]
      rw [resolveList_store_notmem us _ t.id
        (fun v hv he => hnd.1 (he ▸ List.mem_map_of_mem Task.id hv))]
      rw [resolveTask_store_nohandle s t hh]
    · simp only [resolveList]
      rw [ih _ t hnd.2 ht hh]
      exact resolveTask_store_ne s u (fun he => hnd.1
        (he ▸ List.mem_map_of_mem Task.id ht))

@[simp]
theorem finishRunning_queue (s : PoolState ε α) :
    (finishRunning s).queue = s.queue := by
  rw [finishRunning, resolveList_queue]

@[simp]
theorem finishRunning_running (s : PoolState ε α) :
    (finishRunning s).running = [] := by
  rw [finishRunning, resolveList_running]

@[simp]
theorem finishRunning_completed (s : PoolState ε α) :
    (finishRunning s).completed = s.completed ++ s.running := by
  rw [finishRunning, resolveList_completed]

@[simp]
theorem finishRunning_stop (s : PoolState ε α) :
    (finishRunning s).stop = s.stop := by
  rw [finishRunning, resolveList_stop]

@[simp]
theorem finishRunning_pushed (s : PoolState ε α) :
    (finishRunning s).pushed = s.pushed := by
  rw [finishRunning, resolveList_pushed]

@[simp]
theorem finishRunning_dequeuedIds (s : PoolState ε α) :
    (finishRunning s).dequeuedIds = s.dequeuedIds := by
  rw [finishRunning, resolveList_dequeuedIds]

@[simp]
theorem finishRunning_nextId (s : PoolState ε α) :
    (finishRunning s).nextId = s.nextId := by
  rw [finishRunning, resolveList_nextId]

@[simp]
theorem dequeueAll_queue (s : PoolState ε α) :
    (dequeueAll s).queue = [] := rfl

@[simp]
theorem dequeueAll_running (s : PoolState ε α) :
    (dequeueAll s).running = s.running ++ s.queue := rfl

@[simp]
theorem dequeueAll_completed (s : PoolState ε α) :
    (dequeueAll s).completed = s.completed := rfl

@[simp]
theorem dequeueAll_stop (s : PoolState ε α) :
    (dequeueAll s).stop = s.stop := rfl

@[simp]
theorem dequeueAll_pushed (s : PoolState ε α) :
    (dequeueAll s).pushed = s.pushed := rfl

@[simp]
theorem dequeueAll_dequeuedIds (s : PoolState ε α) :
    (dequeueAll s).dequeuedIds =
      s.dequeuedIds ++ s.queue.map Task.id := rfl

theorem terminate_stop (s : PoolState ε α) : (terminate s).stop = true := by
  by_cases h : s.stop = true
  · rw [terminate, if_pos h]
    exact h
  · rw [terminate, if_neg h]

theorem terminate_of_stopped {s : PoolState ε α} (h : s.stop = true) :
    terminate s = s := by
  rw [terminate, if_pos h]

theorem terminate_of_live {s : PoolState ε α} (h : s.stop = false) :
    terminate s = { finishRunning s with stop := true } := by
  rw [terminate, if_neg (by simp [h])]

theorem reach_finishRunning :
    ∀ (l : List (Task ε α)) (s : PoolState ε α), s.running = l →
      Reach s (resolveList { s with running := [] } l) := by
  intro l
  induction l with
  | nil =>
    intro s hs
    have he : ({ s with running := [] } : PoolState ε α) = s := by
      rw [← hs]
    rw [resolveList, he]
    exact Relation.ReflTransGen.refl
  | cons t ts ih =>
    intro s hs
    have hmem : t ∈ s.running := by rw [hs]; simp
    have hstep : Step s (completeTask s t) := Step.complete s t hmem
    have h1 : completeTask s t = resolveTask { s with running := ts } t := by
      rw [completeTask, hs, List.erase_cons_head]
    have h3 := ih (resolveTask { s with running := ts } t) rfl
    have h4 : ({ resolveTask { s with running := ts } t with
        running := [] } : PoolState ε α) =
        resolveTask { s with running := [] } t := rfl
    rw [h4] at h3
    simp only [resolveList]
    exact Relation.ReflTransGen.head (h1 ▸ hstep) h3

theorem reach_terminate (s : PoolState ε α) : Reach s (terminate s) := by
  by_cases hstop : s.stop = true
  · rw [terminate_of_stopped hstop]
    exact Relation.ReflTransGen.refl
  · rw [terminate_of_live (by simpa using hstop)]
    have h1 : Reach s (finishRunning s) :=
      reach_finishRunning s.running s rfl
    exact h1.tail (Step.stopFlag (finishRunning s))

theorem Inv_terminate {s : PoolState ε α} (h : Inv s) :
    Inv (terminate s) :=
  Inv_reach (reach_terminate s) h

theorem reach_dequeueAll_aux :
    ∀ (q : List (Task ε α)) (s : PoolState ε α), s.stop = false →
      s.queue = q → Reach s (dequeueAll s) := by
  intro q
  induction q with
  | nil =>
    intro s hs hq
    have he : dequeueAll s = s := by
      rw [dequeueAll, hq]
      simp only [List.append_nil, List.map_nil]
      rw [← hq]
    rw [he]
    exact Relation.ReflTransGen.refl
  | cons t ts ih =>
    intro s hs hq
    have hstep : Step s { s with queue := ts, running := s.running ++ [t], dequeuedIds := s.dequeuedIds ++ [t.id] } :=
      Step.dequeue s t ts hs hq
    have h3 := ih { s with queue := ts, running := s.running ++ [t], dequeuedIds := s.dequeuedIds ++ [t.id] } hs rfl
    have h4 : dequeueAll { s with queue := ts, running := s.running ++ [t], dequeuedIds := s.dequeuedIds ++ [t.id] } = dequeueAll s := by
      rw [dequeueAll, dequeueAll, hq]
      simp [List.append_assoc]
    rw [h4] at h3
    exact Relation.ReflTransGen.head hstep h3

theorem reach_dequeueAll (s : PoolState ε α) (hs : s.stop = false) :
    Reach s (dequeueAll s) :=
  reach_dequeueAll_aux s.queue s hs rfl

theorem c1_reach : Reach (initState Nat Nat 2) c1f := by
  have h1 : Step (initState Nat Nat 2)
      (pushTask (initState Nat Nat 2) (Except.ok 1) false).1 :=
    Step.push _ (Except.ok 1) false rfl
  have h2 : Step (pushTask (initState Nat Nat 2) (Except.ok 1) false).1 c1b :=
    Step.push _ (Except.ok 2) false rfl
  have h3 : Step c1b c1d := Step.dequeue c1b c1t0 [c1t1] rfl rfl
  have h4 : Step c1d c1e := Step.dequeue c1d c1t1 [] rfl rfl
  have h5 : Step c1e c1f := Step.complete c1e c1t0 (by decide)
  exact ((((Relation.ReflTransGen.refl.tail h1).tail h2).tail h3).tail
    h4).tail h5

theorem c2_reach : Reach (initState Nat Nat 1) c2b := by
  have h1 : Step (initState Nat Nat 1) c2a :=
    Step.push _ (Except.error 7) true rfl
  have h2 : Step c2a c2b := Step.dequeue c2a c2t [] rfl rfl
  exact (Relation.ReflTransGen.refl.tail h1).tail h2

theorem c4_reach : Reach c4s c4e := by
  have h1 : Step c4s c4b := Step.dequeue c4s c4t0 [c4t1] rfl rfl
  have h2 : Step c4b c4c := Step.dequeue c4b c4t1 [] rfl rfl
  have h3 : Step c4c c4d := Step.complete c4c c4t0 (by decide)
  have h4 : Step c4d c4e := Step.complete c4d c4t1 (by decide)
  exact (((Relation.ReflTransGen.refl.tail h1).tail h2).tail h3).tail h4

theorem c5_reach : Reach c5s c5c := by
  have h1 : Step c5s c5b := Step.dequeue c5s c5t [] rfl rfl
  have h2 : Step c5b c5c := Step.complete c5b c5t (by decide)
  exact (Relation.ReflTransGen.refl.tail h1).tail h2

theorem c8_reach : Reach (initState Nat Nat 1) c8d := by
  have h1 : Step (initState Nat Nat 1)
      (pushTask (initState Nat Nat 1) (Except.ok 1) false).1 :=
    Step.push _ (Except.ok 1) false rfl
  have h2 : Step (pushTask (initState Nat Nat 1) (Except.ok 1) false).1 c8c :=
    Step.push _ (Except.ok 2) false rfl
  have h3 : Step c8c c8d := Step.dequeue c8c c8t0 [c8t1] rfl rfl
  exact ((Relation.ReflTransGen.refl.tail h1).tail h2).tail h3

/-- Claim C1, as stated, is false of the code: it asserts that when
`join` returns on a non-stopped pool, every submitted task has been
dequeued and has run to completion, with no task still executing.  In the
reachable state `c1f` of a two-worker pool, the wait condition of `join`
(pool not stopped, task queue empty) holds, yet task `c1t1` has been
dequeued and is still executing (`running ≠ []`, and `c1t1` is not
completed): `join` only re-checks `tasks.empty()`, never whether workers
are still inside `job()`. -/
theorem join_completion_counterexample :
    ¬ (∀ s : PoolState Nat Nat, Reach (initState Nat Nat 2) s →
        joinCanReturn s →
        s.running = [] ∧ ∀ t ∈ s.pushed, t ∈ s.completed) := by
  intro h
  have hc := h c1f c1_reach ⟨rfl, rfl⟩
  exact absurd hc.1 (by decide)

/-- Claim C1 (amended): on a non-stopped pool, `join` returns only once
the task queue is observably empty, at which point every task submitted
before the return has been dequeued (in submission order) — but a
dequeued task may still be executing on a worker when `join` returns. -/
theorem join_returns_only_after_all_dequeued (n : Nat)
    (s : PoolState ε α) (hr : Reach (initState ε α n) s)
    (hj : joinCanReturn s) : s.dequeuedIds = s.pushed.map Task.id := by
  have hInv : Inv s := Inv_reach hr (Inv_initState n)
  have hpo := hInv.pushOrder
  rw [hj.2] at hpo
  simpa using hpo.symm

/-- Witness for the amended claim C1: in the concrete state `c1f` the
`join` wait condition holds and indeed both submitted tasks have been
dequeued, in submission order. -/
theorem join_returns_only_after_all_dequeued_witness :
    joinCanReturn c1f ∧ c1f.dequeuedIds = c1f.pushed.map Task.id :=
  ⟨⟨rfl, rfl⟩, join_returns_only_after_all_dequeued 2 c1f c1_reach ⟨rfl, rfl⟩⟩

/-- Claim C2: a task body that throws is contained by the
`packaged_task` wrapper the worker invokes.  Before the task completes
its future is unresolved (the exception has not been delivered anywhere);
when a worker completes it, the exception is stored in the task's future
exactly when the submission returned a handle (`apply_get`/`map_get`),
re-raised only when the caller reads that future; for a fire-and-forget
task (`apply`/`map`) the store is entirely unchanged — the failure is
unobservable.  The worker does not crash: the queue and the stop flag are
untouched, the worker merely leaves the task behind (`running.erase`),
and the futures of all other tasks are unaffected. -/
theorem task_exception_contained (s : PoolState ε α) (hInv : Inv s)
    (t : Task ε α) (ht : t ∈ s.running) (e : ε)
    (he : t.result = Except.error e) :
    s.store t.id = none ∧
    (t.hasHandle = true →
      (completeTask s t).store t.id = some (Except.error e)) ∧
    (t.hasHandle = false → (completeTask s t).store = s.store) ∧
    (completeTask s t).queue = s.queue ∧
    (completeTask s t).stop = s.stop ∧
    (completeTask s t).running = s.running.erase t ∧
    (∀ u ∈ s.pushed, u.id ≠ t.id →
      (completeTask s t).store u.id = s.store u.id) := by
  refine ⟨?_, ?_, ?_, rfl, rfl, rfl, ?_⟩
  · exact hInv.pendingUnresolved t (by simp [ht])
  · intro hh
    rw [← he]
    exact completeTask_store_self s t hh
  · intro hh
    exact completeTask_store_nohandle s t hh
  · intro u hu hne
    exact completeTask_store_ne s t hne

/-- Witness for claim C2: in the concrete state `c2b` the worker is
executing the throwing task `c2t`; completing it stores the captured
exception `7` in the task's future. -/
theorem task_exception_contained_witness :
    c2t ∈ c2b.running ∧ c2t.result = Except.error 7 ∧
    (completeTask c2b c2t).store 0 = some (Except.error 7) := by
  refine ⟨by decide, rfl, ?_⟩
  exact (task_exception_contained c2b
    (Inv_reach c2_reach (Inv_initState 1)) c2t (by decide) 7 rfl).2.1 rfl

/-- Claim C3: once `terminate` has completed, the stop flag is set, so
every one of the four submission operations and `join` throws the
"Thread pool invoked after it was terminated." error (checked before any
mutation, so the failed call leaves the queue and the workers
untouched — in this model a rejected call returns no successor state). -/
theorem stopped_pool_rejects_all_calls {β : Type} (s : PoolState ε α)
    (r : Except ε α) (f : β → Except ε α) (xs : List β) :
    apply (terminate s) r = Except.error PoolErr.poolStopped ∧
    apply_get (terminate s) r = Except.error PoolErr.poolStopped ∧
    map (terminate s) f xs = Except.error PoolErr.poolStopped ∧
    map_get (terminate s) f xs = Except.error PoolErr.poolStopped ∧
    join (terminate s) = Except.error PoolErr.poolStopped := by
  have hstop := terminate_stop s
  refine ⟨?_, ?_, ?_, ?_, ?_⟩ <;>
    simp [apply, apply_get, map, map_get, join, hstop]

/-- Claim C7: `terminate` is idempotent — `stop.exchange(true)` makes the
second call return immediately, so terminating twice yields exactly the
state of terminating once, and after one call the stop flag is set (the
false-to-true transition happens at most once). -/
theorem terminate_idempotent (s : PoolState ε α) :
    terminate (terminate s) = terminate s ∧ (terminate s).stop = true :=
  ⟨terminate_of_stopped (terminate_stop s), terminate_stop s⟩

/-- Claim C9: the default constructor delegates the reported hardware
concurrency to the counted constructor, so with hardware concurrency `0`
it throws the same `std::length_error`; for `n ≥ 1` construction yields a
pool of exactly `n` workers, and `size()` returns `n` in every state the
pool can subsequently reach. -/
theorem constructor_spec :
    (∀ hw : Nat, mkPoolDefault ε α hw = mkPool ε α hw) ∧
    mkPoolDefault ε α 0 = Except.error PoolErr.lengthError ∧
    ∀ n : Nat, 1 ≤ n → mkPool ε α n = Except.ok (initState ε α n) ∧
      size (initState ε α n) = n ∧
      ∀ s' : PoolState ε α, Reach (initState ε α n) s' → size s' = n := by
  refine ⟨fun hw => rfl, rfl, ?_⟩
  intro n hn
  refine ⟨?_, rfl, ?_⟩
  · rw [mkPool, if_neg (by omega)]
  · intro s' hr
    rw [size, reach_workerCount hr]
    rfl

/-- Witness for claim C9: a pool of three workers is constructed
successfully and reports `size() = 3`, also after a further step. -/
theorem constructor_spec_witness :
    mkPool Nat Nat 3 = Except.ok (initState Nat Nat 3) ∧
    size (initState Nat Nat 3) = 3 ∧
    size (pushTask (initState Nat Nat 3) (Except.ok 0) false).1 = 3 :=
  ⟨((@constructor_spec Nat Nat _ _).2.2 3 (by decide)).1,
   ((@constructor_spec Nat Nat _ _).2.2 3 (by decide)).2.1,
   ((@constructor_spec Nat Nat _ _).2.2 3 (by decide)).2.2 _
     (Relation.ReflTransGen.refl.tail
       (Step.push _ (Except.ok 0) false rfl))⟩

/-- Claim C5: for a pure callable, the future returned by `apply_get` on
a non-stopped pool is either still unresolved or already holds exactly
`f x`; and once every submitted task has been dequeued and no worker is
still executing one, it is resolved with exactly `f x` — never any other
value. -/
theorem apply_get_result_correct {β : Type} (s : PoolState ε α)
    (hInv : Inv s) (hstop : s.stop = false) (f : β → α) (x : β)
    (s₁ : PoolState ε α) (hdl : Nat)
    (hcall : apply_get s (Except.ok (f x)) = Except.ok (s₁, hdl))
    (s₂ : PoolState ε α) (hr : Reach s₁ s₂) :
    (s₂.store hdl = none ∨ s₂.store hdl = some (Except.ok (f x))) ∧
    (s₂.queue = [] → s₂.running = [] →
      s₂.store hdl = some (Except.ok (f x))) := by
  rw [apply_get, if_neg (by simp [hstop])] at hcall
  injection hcall with hpair
  have hs₁ := congrArg Prod.fst hpair
  have hhdl := congrArg Prod.snd hpair
  simp only [pushTask] at hs₁ hhdl
  have htmem : (⟨s.nextId, Except.ok (f x), true⟩ : Task ε α) ∈
      s₁.pushed := by
    rw [← hs₁]
    simp
  have hInv₁ : Inv s₁ := by
    rw [← hs₁]
    exact Inv_pushTask hInv _ true
  have hmain := store_correct hInv₁ hr htmem
  rw [← hhdl]
  exact ⟨hmain.1, fun hq hrn => hmain.2 hq hrn rfl⟩

/-- Witness for claim C5: submitting a task computing `5` via
`apply_get` on a fresh one-worker pool, then letting the worker pop and
complete it, leaves `some (Except.ok 5)` in the returned future. -/
theorem apply_get_result_correct_witness :
    apply_get (initState Nat Nat 1) (Except.ok 5) = Except.ok (c5s, 0) ∧
    c5c.store 0 = some (Except.ok 5) :=
  ⟨rfl,
   (apply_get_result_correct (initState Nat Nat 1) (Inv_initState 1) rfl
     (fun n : Nat => n) 5 c5s 0 rfl c5c c5_reach).2 (by decide) (by decide)⟩

/-- Claim C4: for a pure callable, `map_get` over a sequence iterated
once in order on a non-stopped pool returns exactly one future per
element, in input order; and whatever order the workers complete the
tasks in, once all of them have been dequeued and completed, the `i`-th
future holds exactly `f` of the `i`-th input. -/
theorem map_get_order_and_results {β : Type} (s : PoolState ε α)
    (hInv : Inv s) (hstop : s.stop = false) (f : β → α) (xs : List β)
    (s₁ : PoolState ε α) (hdls : List Nat)
    (hcall : map_get s (fun x => Except.ok (f x)) xs =
      Except.ok (s₁, hdls)) :
    hdls.length = xs.length ∧
    ∀ (i : Nat) (hi : i < hdls.length) (hxi : i < xs.length)
      (s₂ : PoolState ε α), Reach s₁ s₂ → s₂.queue = [] →
      s₂.running = [] →
      s₂.store (hdls.get ⟨i, hi⟩) =
        some (Except.ok (f (xs.get ⟨i, hxi⟩))) := by
  rw [map_get, if_neg (by simp [hstop])] at hcall
  injection hcall with hpair
  have hs₁ := congrArg Prod.fst hpair
  have hids := congrArg Prod.snd hpair
  simp only at hs₁ hids
  rw [pushBatch_ids] at hids
  have hlen : hdls.length = xs.length := by
    rw [← hids]
    simp [List.length_range']
  refine ⟨hlen, ?_⟩
  intro i hi hxi s₂ hr hq hrn
  have hid : hdls.get ⟨i, hi⟩ = s.nextId + i := by
    have h1 : hdls.get ⟨i, hi⟩ = hdls[i] := rfl
    rw [h1]
    have h2 := hids.symm
    subst h2
    simp [List.getElem_range']
  have hml : i < (xs.map (fun x => (Except.ok (f x) : Except ε α))).length := by
    simpa using hxi
  have hmem := pushBatch_mem_pushed true
    (xs.map (fun x => (Except.ok (f x) : Except ε α))) s i hml
  rw [hs₁] at hmem
  have hInv₁ : Inv s₁ := by
    rw [← hs₁]
    exact Inv_pushBatch true _ s hInv
  have hmain := (store_correct hInv₁ hr hmem).2 hq hrn rfl
  have hget : (xs.map (fun x => (Except.ok (f x) : Except ε α))).get
      ⟨i, hml⟩ = Except.ok (f (xs.get ⟨i, hxi⟩)) := by
    simp
  rw [hid]
  rw [hget] at hmain
  exact hmain

/-- Witness for claim C4: `map_get (· * 2) [3, 4]` on a fresh one-worker
pool returns the futures `[0, 1]` in input order, and after the worker
drains and completes both tasks, future `0` holds `6` and future `1`
holds `8`. -/
theorem map_get_order_and_results_witness :
    map_get (initState Nat Nat 1) (fun x => Except.ok (x * 2)) [3, 4] =
      Except.ok (c4s, [0, 1]) ∧
    c4e.store 0 = some (Except.ok 6) ∧
    c4e.store 1 = some (Except.ok 8) :=
  ⟨rfl,
   (map_get_order_and_results (initState Nat Nat 1) (Inv_initState 1) rfl
     (fun x : Nat => x * 2) [3, 4] c4s [0, 1] rfl).2 0 (by decide)
     (by decide) c4e c4_reach (by decide) (by decide),
   (map_get_order_and_results (initState Nat Nat 1) (Inv_initState 1) rfl
     (fun x : Nat => x * 2) [3, 4] c4s [0, 1] rfl).2 1 (by decide)
     (by decide) c4e c4_reach (by decide) (by decide)⟩

/-- Claim C6: the destructor dispatches on the compile-time policy.
Under `Policy::JOIN` it first drains (`join()` waits until the workers
emptied the queue) and then stops: the final state is stopped, every
submitted task has been dequeued and completed, and every handled task's
future holds its result.  Under `Policy::TERMINATE` it stops directly:
the final state is stopped and every task still pending in the queue is
discarded — never executed, never completed, its future never
resolved. -/
theorem destructor_policy (s : PoolState ε α) (hInv : Inv s)
    (hstop : s.stop = false) :
    (destruct Policy.JOIN s = Except.ok (terminate (dequeueAll s)) ∧
     (terminate (dequeueAll s)).stop = true ∧
     (terminate (dequeueAll s)).queue = [] ∧
     (terminate (dequeueAll s)).running = [] ∧
     s.pushed.Perm (terminate (dequeueAll s)).completed ∧
     (∀ t ∈ s.pushed, t.hasHandle = true →
       (terminate (dequeueAll s)).store t.id = some t.result)) ∧
    (destruct Policy.TERMINATE s = Except.ok (terminate s) ∧
     (terminate s).stop = true ∧
     (terminate s).queue = s.queue ∧
     (∀ t ∈ s.queue, t ∉ (terminate s).completed ∧
       (terminate s).store t.id = none)) := by
  have hndElems := hInv.allNodup
  rw [allTasks, List.nodup_append] at hndElems
  obtain ⟨hndC, hndRQ, hdisC⟩ := hndElems
  rw [List.nodup_append] at hndRQ
  obtain ⟨hndR, hndQ, hdisRQ⟩ := hndRQ
  have hdA : (dequeueAll s).stop = false := by
    rw [dequeueAll_stop]
    exact hstop
  have htermA := terminate_of_live hdA
  have htermS := terminate_of_live hstop
  constructor
  · refine ⟨?_, terminate_stop _, ?_, ?_, ?_, ?_⟩
    · rw [destruct, if_pos rfl, if_neg (by simp [hstop])]
    · rw [htermA]
      simp
    · rw [htermA]
      simp
    · rw [htermA]
      have hc : ({ finishRunning (dequeueAll s) with stop := true} :
          PoolState ε α).completed =
          s.completed ++ (s.running ++ s.queue) := by
        simp
      rw [hc]
      exact hInv.partitionTasks
    · intro t htp hh
      have hreach : Reach s (terminate (dequeueAll s)) :=
        Relation.ReflTransGen.trans (reach_dequeueAll s hstop)
          (reach_terminate (dequeueAll s))
      refine (store_correct hInv hreach htp).2 ?_ ?_ hh
      · rw [htermA]; simp
      · rw [htermA]; simp
  · refine ⟨?_, terminate_stop _, ?_, ?_⟩
    · rw [destruct, if_neg (by decide)]
    · rw [htermS]
      simp
    · intro t htq
      have htid : ∀ u ∈ s.running, u.id ≠ t.id := by
        intro u hu he
        have heq : u = t := hInv.allInj u (mem_allTasks_of_running hu) t
          (mem_allTasks_of_queue htq) he
        subst heq
        exact hdisRQ hu htq
      constructor
      · rw [htermS]
        simp only [PoolState.completed, finishRunning_completed,
          List.mem_append]
        rintro (hc | hrun)
        · exact hdisC hc (by simp [htq])
        · exact hdisRQ hrun htq
      · rw [htermS]
        have h1 : ({ finishRunning s with stop := true} :
            PoolState ε α).store t.id = (finishRunning s).store t.id := rfl
        rw [h1, finishRunning, resolveList_store_notmem _ _ _ htid]
        exact hInv.pendingUnresolved t (by simp [htq])

/-- Witness for claim C6: a one-worker pool with one handled and one
fire-and-forget task queued.  Destroying it under `Policy::JOIN` resolves
the handled task's future with its value `5`; under `Policy::TERMINATE`
the same queued task is discarded and its future stays unresolved. -/
theorem destructor_policy_witness :
    c6s.stop = false ∧
    destruct Policy.JOIN c6s = Except.ok (terminate (dequeueAll c6s)) ∧
    (terminate (dequeueAll c6s)).store 0 = some (Except.ok 5) ∧
    (terminate c6s).store 0 = none := by
  have h := destructor_policy c6s
    (Inv_pushTask (Inv_pushTask (Inv_initState 1) (Except.ok 5) true)
      (Except.ok 7) false) rfl
  refine ⟨rfl, h.1.1, ?_, ?_⟩
  · exact h.1.2.2.2.2.2 ⟨0, Except.ok 5, true⟩ (by decide) rfl
  · exact (h.2.2.2.2 ⟨0, Except.ok 5, true⟩ (by decide)).2

/-- Claim C8: global FIFO dispatch.  Along every reachable interleaving,
the sequence of dequeued task ids is exactly an initial segment of the
sequence of pushed task ids (no priority reordering, no stealing): a
task pushed earlier is popped earlier, and if the `j`-th pushed task has
been popped then so has every earlier one — at dequeue position equal to
its push position.  Completion order is not constrained. -/
theorem fifo_dispatch (n : Nat) (s : PoolState ε α)
    (hr : Reach (initState ε α n) s) :
    s.dequeuedIds = (s.pushed.map Task.id).take s.dequeuedIds.length ∧
    ∀ (j : Nat) (hj : j < s.pushed.length),
      (s.pushed.get ⟨j, hj⟩).id ∈ s.dequeuedIds →
      j < s.dequeuedIds.length := by
  have hInv : Inv s := Inv_reach hr (Inv_initState n)
  have hpo := hInv.pushOrder
  have htake : (s.pushed.map Task.id).take s.dequeuedIds.length =
      s.dequeuedIds := by
    rw [hpo]
    exact List.take_left _ _
  refine ⟨htake.symm, ?_⟩
  intro j hj hmem
  rw [← htake] at hmem
  obtain ⟨m, hm, hgm⟩ := List.mem_iff_getElem.mp hmem
  have hlen : ((s.pushed.map Task.id).take s.dequeuedIds.length).length =
      min s.dequeuedIds.length (s.pushed.map Task.id).length :=
    List.length_take _ _
  have hmk : m < s.dequeuedIds.length := by omega
  have hml : m < (s.pushed.map Task.id).length := by omega
  have hjl : j < (s.pushed.map Task.id).length := by simpa using hj
  have hgm2 : (s.pushed.map Task.id)[m] = (s.pushed.get ⟨j, hj⟩).id :=
    (@List.getElem_take _ (s.pushed.map Task.id) s.dequeuedIds.length m
      hm).symm.trans hgm
  have hgj : (s.pushed.map Task.id)[j] = (s.pushed.get ⟨j, hj⟩).id := by
    simp
  have heq : (s.pushed.map Task.id)[m] = (s.pushed.map Task.id)[j] :=
    hgm2.trans hgj.symm
  have hmj : m = j := (List.Nodup.getElem_inj_iff hInv.idsNodup).mp heq
  omega

/-- Witness for claim C8: after two submissions and one pop on a
one-worker pool, the dequeued ids `[0]` are precisely the first segment
of the pushed ids `[0, 1]`, and the first-pushed task has indeed been
popped. -/
theorem fifo_dispatch_witness :
    c8d.dequeuedIds =
      (c8d.pushed.map Task.id).take c8d.dequeuedIds.length ∧
    0 < c8d.dequeuedIds.length :=
  ⟨(fifo_dispatch 1 c8d c8_reach).1,
   (fifo_dispatch 1 c8d c8_reach).2 0 (by decide) (by decide)⟩

end ThreadPool

namespace TestFramework

theorem lookupA_eraseA {κ β : Type} [DecidableEq κ] (k : κ) :
    ∀ m : List (κ × β), lookupA k (eraseA k m) = none := by
  intro m
  induction m with
  | nil => rfl
  | cons p ps ih =>
    rw [eraseA]
    by_cases hp : p.1 = k
    · rw [if_pos hp]
      exact ih
    · rw [if_neg hp, lookupA, if_neg hp]
      exact ih

theorem lookupA_append_of_none {κ β : Type} [DecidableEq κ] (k : κ) :
    ∀ m m' : List (κ × β), lookupA k m = none →
      lookupA k (m ++ m') = lookupA k m' := by
  intro m
  induction m with
  | nil => intro m' _; rfl
  | cons p ps ih =>
    intro m' hnone
    rw [lookupA] at hnone
    by_cases hp : p.1 = k
    · rw [if_pos hp] at hnone
      exact absurd hnone (by simp)
    · rw [if_neg hp] at hnone
      rw [List.cons_append, lookupA, if_neg hp]
      exact ih m' hnone

/-- Claim C10: re-registering an already registered test name does not
replace the stored callable (`std::map::emplace` inserts only when the
key is absent, despite the header's comment), while the previously
recorded result for that name is erased, so the test counts as not
executed and the next `run` (and hence `run_all`) executes it again and
records a fresh result. -/
theorem emplace_no_overwrite {κ μ : Type} [DecidableEq κ]
    (fr : Framework κ μ) (name : κ) (g : Except μ Unit)
    (h : contains fr name = true) :
    lookupA name (emplace fr name g).tests = lookupA name fr.tests ∧
    lookupA name (emplace fr name g).results = none ∧
    executed (emplace fr name g) name = false ∧
    ∃ fr₂, run (emplace fr name g) name = Except.ok fr₂ ∧
      executed fr₂ name = true := by
  have htests : (emplace fr name g).tests = fr.tests := by
    rw [emplace]
    exact if_pos h
  have hres : lookupA name (emplace fr name g).results = none := by
    rw [emplace]
    exact lookupA_eraseA name fr.results
  have hexec : executed (emplace fr name g) name = false := by
    rw [executed, hres]
    rfl
  refine ⟨by rw [htests], hres, hexec, ?_⟩
  have hcont : contains (emplace fr name g) name = true := by
    rw [contains, htests]
    exact h
  obtain ⟨o, ho⟩ := Option.isSome_iff_exists.mp h
  rw [run, if_neg (by simp [hcont]), if_neg (by simp [hexec]), htests, ho]
  cases o with
  | ok u =>
    refine ⟨_, rfl, ?_⟩
    rw [executed, emplace]
    rw [lookupA_append_of_none name _ _ (lookupA_eraseA name fr.results)]
    rw [lookupA, if_pos rfl]
    rfl
  | error e =>
    refine ⟨_, rfl, ?_⟩
    rw [executed, emplace]
    rw [lookupA_append_of_none name _ _ (lookupA_eraseA name fr.results)]
    rw [lookupA, if_pos rfl]
    rfl

/-- Witness for claim C10: in the concrete framework `fwEx`, test `0` is
registered with a passing body and already has a recorded result;
re-registering name `0` with a failing body keeps the original passing
body, erases the old result, and marks the test as not executed. -/
theorem emplace_no_overwrite_witness :
    contains fwEx 0 = true ∧
    lookupA 0 (emplace fwEx 0 (Except.error 9)).tests =
      some (Except.ok ()) ∧
    lookupA 0 (emplace fwEx 0 (Except.error 9)).results = none ∧
    executed (emplace fwEx 0 (Except.error 9)) 0 = false :=
  ⟨by decide,
   ((emplace_no_overwrite fwEx 0 (Except.error 9) (by decide)).1).trans
     (by decide),
   (emplace_no_overwrite fwEx 0 (Except.error 9) (by decide)).2.1,
   (emplace_no_overwrite fwEx 0 (Except.error 9) (by decide)).2.2.1⟩

end TestFramework
